import Mathlib

/-!
# KeySight core — shallow embedding

A shallow embedding of the KeySight secure-storage core
(`src/utils/secureStorage.ts`): the tamper-evident encrypted ledger
(`SecureStorage`) and the zero-trust input-validation layer
(`InputValidator`), together with proofs of the specification claims.

Modelling conventions:
* JavaScript strings are Lean `String`s (lists of characters); the
  character-level helpers work on `List Char`.
* SHA-256 (`crypto.subtle.digest`) is a platform primitive, so the ledger
  is parametric in an abstract hash function `hash : String → String`.
* AES-GCM encryption/decryption round-trips plaintext; the payload store
  therefore holds the event record itself, keyed by block index, and
  `decrypt` is lookup (the nonce/ciphertext mechanics carry no
  information observable by any claim).
* `Date.now()` and `Math.random()`-derived signatures are explicit
  arguments (`t`, `sig`) of the operations that consume them.
* `async` methods are sequentialized: each operation is a function from
  ledger state to (result, new state); a thrown exception is `Except.error`.
-/

namespace KeySight

/-- `StorageBlock` from `src/types.ts`: chain metadata entry. -/
structure StorageBlock where
  index : Nat
  previousHash : String
  timestamp : Nat
  dataHash : String
  signature : String
deriving DecidableEq

/-- The plaintext event records stored in the ledger.  The projector
(`getAllItems`) discriminates on the JS `type` field *and* on the presence
of a truthy `targetIndex`; records that are not one of the three semantic
types with a `targetIndex` field all take the same default branch, so they
are collected into the single constructor `evidence`, carrying their JSON
serialization opaquely. -/
inductive EventRecord where
  | evidence (raw : String)
  | lockEvidence (targetIndex : Nat) (user : String) (timestamp : Nat) (description : String)
  | unlockEvidence (targetIndex : Nat) (user : String) (timestamp : Nat) (description : String)
  | tombstone (targetIndex : Nat) (user : String) (timestamp : Nat) (description : String)
  | securityViolation (severity : String) (description : String)
      (payloadFragment : String) (validationSchema : String)
deriving DecidableEq

/-- JSON string escaping as performed by `JSON.stringify` on the
characters that can actually occur in the records built by this core. -/
def escChar (c : Char) : String :=
  if c = '"' then "\\\""
  else if c = '\\' then "\\\\"
  else if c = '\n' then "\\n"
  else if c = '\t' then "\\t"
  else if c = '\r' then "\\r"
  else String.singleton c

def jsonEscape (s : String) : String :=
  String.join (s.toList.map escChar)

def jsonStr (s : String) : String :=
  "\"" ++ jsonEscape s ++ "\""

/-- `JSON.stringify` of a `StorageBlock` (object keys in insertion order:
`index`, `previousHash`, `timestamp`, `dataHash`, `signature`). -/
def serializeBlock (b : StorageBlock) : String :=
  "\x7b\"index\":" ++ toString b.index ++
  ",\"previousHash\":" ++ jsonStr b.previousHash ++
  ",\"timestamp\":" ++ toString b.timestamp ++
  ",\"dataHash\":" ++ jsonStr b.dataHash ++
  ",\"signature\":" ++ jsonStr b.signature ++ "\x7d"

/-- `JSON.stringify` of an event record, with object keys in the insertion
order used at each construction site in the source. -/
def serializeRecord : EventRecord → String
  | .evidence raw => raw
  | .lockEvidence ti u t d =>
      "\x7b\"type\":\"LOCK_EVIDENCE\",\"targetIndex\":" ++ toString ti ++
      ",\"timestamp\":" ++ toString t ++ ",\"user\":" ++ jsonStr u ++
      ",\"description\":" ++ jsonStr d ++ "\x7d"
  | .unlockEvidence ti u t d =>
      "\x7b\"type\":\"UNLOCK_EVIDENCE\",\"targetIndex\":" ++ toString ti ++
      ",\"timestamp\":" ++ toString t ++ ",\"user\":" ++ jsonStr u ++
      ",\"description\":" ++ jsonStr d ++ "\x7d"
  | .tombstone ti u t d =>
      "\x7b\"type\":\"TOMBSTONE\",\"targetIndex\":" ++ toString ti ++
      ",\"timestamp\":" ++ toString t ++ ",\"user\":" ++ jsonStr u ++
      ",\"description\":" ++ jsonStr d ++ "\x7d"
  | .securityViolation sev d pf vs =>
      "\x7b\"type\":\"SECURITY_VIOLATION\",\"severity\":" ++ jsonStr sev ++
      ",\"description\":" ++ jsonStr d ++
      ",\"metadata\":\x7b\"payload_fragment\":" ++ jsonStr pf ++
      ",\"validation_schema\":" ++ jsonStr vs ++ "\x7d\x7d"

/-- The state of one `SecureStorage` instance: the block chain, the
payload store (`Map<number, ArrayBuffer>`, modelled as an association
list whose head shadows older entries exactly like `Map.set`), and
whether `encryptionKey` is established. -/
structure LedgerState where
  chain : List StorageBlock
  storage : List (Nat × EventRecord)
  encryptionKey : Bool
deriving DecidableEq

/-- The freshly constructed `SecureStorage`. -/
def initialState : LedgerState := ⟨[], [], false⟩

/-- The genesis block pushed by `initialize` (its timestamp is
`Date.now()`). -/
def genesisBlock (t : Nat) : StorageBlock :=
  ⟨0, "00000000000000000000000000000000", t, "GENESIS_BLOCK", "SYSTEM_INIT"⟩

/-- `SecureStorage.initialize`: derive and install the key, then create
the genesis block if (and only if) the chain is empty.  Always returns
`true`, so only the state is modelled. -/
def initLedger (s : LedgerState) (t : Nat) : LedgerState :=
  let s1 : LedgerState := { s with encryptionKey := true }
  if s1.chain.length = 0 then { s1 with chain := s1.chain ++ [genesisBlock t] } else s1

variable (hash : String → String)

/-- `SecureStorage.append`.  `getKey()` throws if no key is established;
otherwise the record is encrypted and stored under `prevBlock.index + 1`
and a new block is pushed whose `previousHash` is the hash of the JSON
serialization of the previous block.  With an empty chain the JS code
would fault reading `prevBlock.index` of `undefined`; that path is an
error here (it is unreachable from reachable states with a key). -/
def append (s : LedgerState) (data : EventRecord) (t : Nat) (sig : String) :
    Except String (StorageBlock × LedgerState) :=
  if s.encryptionKey = false then
    .error "Storage locked: Encryption key not initialized"
  else
    match s.chain.getLast? with
    | none => .error "TypeError: cannot read properties of undefined"
    | some prevBlock =>
      let newIndex := prevBlock.index + 1
      let newBlock : StorageBlock :=
        ⟨newIndex, hash (serializeBlock prevBlock), t, hash (serializeRecord data), sig⟩
      .ok (newBlock,
        { s with storage := (newIndex, data) :: s.storage,
                 chain := s.chain ++ [newBlock] })

/-- `SecureStorage.decrypt`: the whole body is wrapped in `try/catch`
returning `null`, so a missing key (the `getKey()` throw), an unknown
index, or a failed decryption all yield `none` — never an exception. -/
def decrypt (s : LedgerState) (index : Nat) : Option EventRecord :=
  if s.encryptionKey = false then none
  else s.storage.lookup index

/-- `SecureStorage.lockItem`: sugar over `append` with a `LOCK_EVIDENCE`
record; returns `true` on success. -/
def lockItem (s : LedgerState) (targetBlockIndex : Nat) (user : String)
    (t : Nat) (sig : String) : Except String (Bool × LedgerState) :=
  match append hash s
      (.lockEvidence targetBlockIndex user t ("Evidence locked by " ++ user)) t sig with
  | .ok (_, s1) => .ok (true, s1)
  | .error e => .error e

/-- `SecureStorage.unlockItem`. -/
def unlockItem (s : LedgerState) (targetBlockIndex : Nat) (user : String)
    (t : Nat) (sig : String) : Except String (Bool × LedgerState) :=
  match append hash s
      (.unlockEvidence targetBlockIndex user t ("Evidence unlocked by " ++ user)) t sig with
  | .ok (_, s1) => .ok (true, s1)
  | .error e => .error e

/-- `SecureStorage.deleteItem`: appends a `TOMBSTONE` record. -/
def deleteItem (s : LedgerState) (targetBlockIndex : Nat) (user : String)
    (t : Nat) (sig : String) : Except String (Bool × LedgerState) :=
  match append hash s
      (.tombstone targetBlockIndex user t ("Item deleted by " ++ user)) t sig with
  | .ok (_, s1) => .ok (true, s1)
  | .error e => .error e

/-- A projected item: the block metadata fields (underscore-prefixed in
JS), the spread of the decrypted record, and the derived `locked` flag. -/
structure ProjectedItem where
  blockIndex : Nat
  blockHash : String
  blockTimestamp : Nat
  content : EventRecord
  locked : Bool
deriving DecidableEq

def mkItem (b : StorageBlock) (content : EventRecord) : ProjectedItem :=
  ⟨b.index, b.dataHash, b.timestamp, content, false⟩

/-- `Map.set` on the `rawItems` map: overwriting an existing key keeps its
insertion position; a fresh key is appended. -/
def setEntry (raw : List (Nat × ProjectedItem)) (k : Nat) (v : ProjectedItem) :
    List (Nat × ProjectedItem) :=
  if raw.any (fun p => p.1 == k) then
    raw.map (fun p => if p.1 == k then (k, v) else p)
  else raw ++ [(k, v)]

/-- `Set.add`. -/
def addMember (l : List Nat) (x : Nat) : List Nat :=
  if l.contains x then l else l ++ [x]

/-- `Set.delete`. -/
def delMember (l : List Nat) (x : Nat) : List Nat :=
  l.filter (fun y => y != x)

/-- Accumulator of the replay loop in `getAllItems`: the `rawItems`
insertion-ordered map and the `locks` / `deletions` sets. -/
structure ReplayAcc where
  raw : List (Nat × ProjectedItem)
  locks : List Nat
  dels : List Nat
deriving DecidableEq

/-- One iteration of the first loop of `getAllItems`.  The JS guards are
`content.type === '...' && content.targetIndex`, so a zero `targetIndex`
(falsy) falls through to the default branch. -/
def replayStep (dec : Nat → Option EventRecord) (acc : ReplayAcc) (b : StorageBlock) :
    ReplayAcc :=
  match dec b.index with
  | none => acc
  | some content =>
    let item := mkItem b content
    match content with
    | .lockEvidence ti _ _ _ =>
        if ti ≠ 0 then ⟨setEntry acc.raw b.index item, addMember acc.locks ti, acc.dels⟩
        else ⟨setEntry acc.raw b.index item, acc.locks, acc.dels⟩
    | .unlockEvidence ti _ _ _ =>
        if ti ≠ 0 then ⟨setEntry acc.raw b.index item, delMember acc.locks ti, acc.dels⟩
        else ⟨setEntry acc.raw b.index item, acc.locks, acc.dels⟩
    | .tombstone ti _ _ _ =>
        if ti ≠ 0 then ⟨setEntry acc.raw b.index item, acc.locks, addMember acc.dels ti⟩
        else ⟨setEntry acc.raw b.index item, acc.locks, acc.dels⟩
    | _ => ⟨setEntry acc.raw b.index item, acc.locks, acc.dels⟩

/-- `SecureStorage.getAllItems` (the projector / `materialize`): replay
the chain from position 1 (skipping genesis), then filter out deleted
indices, decorate each survivor with its `locked` flag, and reverse for
newest-first order. -/
def getAllItems (s : LedgerState) : List ProjectedItem :=
  let acc := (s.chain.drop 1).foldl (replayStep (decrypt s)) ⟨[], [], []⟩
  ((acc.raw.filter (fun p => !(acc.dels.contains p.1))).map
    (fun p => { p.2 with locked := acc.locks.contains p.1 })).reverse

/-- `SecureStorage.getChainLength`. -/
def getChainLength (s : LedgerState) : Nat := s.chain.length

/-- `SecureStorage.getStorageUsage`: total byte length of the stored
blobs (12-byte IV + ciphertext, whose length is plaintext + 16-byte
GCM tag). -/
def getStorageUsage (s : LedgerState) : Nat :=
  (s.storage.map (fun kv => 12 + (serializeRecord kv.2).utf8ByteSize + 16)).sum

/-- The operations of the `SecureStorage` core. -/
inductive CoreOp where
  | initOp (t : Nat)
  | appendOp (data : EventRecord) (t : Nat) (sig : String)
  | lockOp (targetBlockIndex : Nat) (user : String) (t : Nat) (sig : String)
  | unlockOp (targetBlockIndex : Nat) (user : String) (t : Nat) (sig : String)
  | deleteOp (targetBlockIndex : Nat) (user : String) (t : Nat) (sig : String)
  | materializeOp
  | decryptOp (index : Nat)
  | chainLengthOp
  | storageUsageOp

/-- The result of one operation. -/
inductive OpOutput where
  | boolOut (b : Bool)
  | blockOut (b : StorageBlock)
  | itemsOut (items : List ProjectedItem)
  | recOut (r : Option EventRecord)
  | natOut (n : Nat)
  | errOut (msg : String)
deriving DecidableEq

/-- Step semantics of the core: each operation maps a state to its result
and successor state.  A thrown exception (`errOut`) leaves the state as
the code does: the throw happens before any mutation. -/
def runOp (op : CoreOp) (s : LedgerState) : OpOutput × LedgerState :=
  match op with
  | .initOp t => (.boolOut true, initLedger s t)
  | .appendOp d t g =>
      match append hash s d t g with
      | .ok (b, s1) => (.blockOut b, s1)
      | .error e => (.errOut e, s)
  | .lockOp i u t g =>
      match lockItem hash s i u t g with
      | .ok (r, s1) => (.boolOut r, s1)
      | .error e => (.errOut e, s)
  | .unlockOp i u t g =>
      match unlockItem hash s i u t g with
      | .ok (r, s1) => (.boolOut r, s1)
      | .error e => (.errOut e, s)
  | .deleteOp i u t g =>
      match deleteItem hash s i u t g with
      | .ok (r, s1) => (.boolOut r, s1)
      | .error e => (.errOut e, s)
  | .materializeOp => (.itemsOut (getAllItems s), s)
  | .decryptOp i => (.recOut (decrypt s i), s)
  | .chainLengthOp => (.natOut (getChainLength s), s)
  | .storageUsageOp => (.natOut (getStorageUsage s), s)

/-- The state reached after an operation. -/
def applyOp (op : CoreOp) (s : LedgerState) : LedgerState :=
  (runOp hash op s).2

/-- States reachable from a fresh `SecureStorage` by any sequence of core
operations. -/
inductive Reachable : LedgerState → Prop where
  | base : Reachable initialState
  | step : ∀ {s : LedgerState} (op : CoreOp), Reachable s → Reachable (applyOp hash op s)

/-! ## Input validation layer (`InputValidator`) -/

/-- The JavaScript `\s` / `trim` whitespace class. -/
def isJsSpace (c : Char) : Bool :=
  c = ' ' || c = '\t' || c = '\n' || c = '\r' || c.toNat = 0x0B || c.toNat = 0x0C ||
  c.toNat = 0xA0 || c.toNat = 0x1680 || (0x2000 ≤ c.toNat && c.toNat ≤ 0x200A) ||
  c.toNat = 0x2028 || c.toNat = 0x2029 || c.toNat = 0x202F || c.toNat = 0x205F ||
  c.toNat = 0x3000 || c.toNat = 0xFEFF

/-- The control characters stripped by `canonicalize`:
`[\x00-\x08\x0B\x0C\x0E-\x1F\x7F]` (tab, newline and carriage return are
kept). -/
def isStrippedControl (c : Char) : Bool :=
  c.toNat ≤ 0x08 || c.toNat = 0x0B || c.toNat = 0x0C ||
  (0x0E ≤ c.toNat && c.toNat ≤ 0x1F) || c.toNat = 0x7F

/-- `String.prototype.trim`. -/
def trimChars (cs : List Char) : List Char :=
  ((cs.dropWhile isJsSpace).reverse.dropWhile isJsSpace).reverse

/-- `String.prototype.normalize('NFKC')`.  NFKC normalization is the
identity on ASCII text, and every concrete string a claim quantifies or
evaluates over is ASCII, so it is embedded as the identity. -/
def nfkcNormalize (s : String) : String := s

/-- `InputValidator.canonicalize`: NFKC-normalize, strip control
characters, trim.  (`if (!input) return ''` agrees with this on the empty
string.) -/
def canonicalize (input : String) : String :=
  let clean := nfkcNormalize input
  let clean2 := clean.toList.filter (fun c => !(isStrippedControl c))
  (trimChars clean2).asString

/-- Exact match of one octet against the anchored alternation
`25[0-5]|2[0-4][0-9]|[01]?[0-9][0-9]?`.  In `PATTERNS.IP_V4` each octet
group is followed by a literal dot or the anchor, and no alternative can
consume a dot, so the regex matches a string exactly when it splits into
four dot-separated parts each of which this alternation consumes
entirely. -/
def octetMatch (cs : List Char) : Bool :=
  match cs with
  | [c] => c.isDigit
  | [c1, c2] => c1.isDigit && c2.isDigit
  | [c1, c2, c3] =>
      (c1 = '2' && c2 = '5' && '0' ≤ c3 && c3 ≤ '5') ||
      (c1 = '2' && '0' ≤ c2 && c2 ≤ '4' && c3.isDigit) ||
      ((c1 = '0' || c1 = '1') && c2.isDigit && c3.isDigit)
  | _ => false

/-- Split a character list on a separator character (the semantics of
`String.split` on a single-character separator: `n` separators yield
`n + 1` groups, empty groups included). -/
def splitOnChar (sep : Char) : List Char → List (List Char)
  | [] => [[]]
  | c :: rest =>
      let r := splitOnChar sep rest
      if c = sep then [] :: r
      else
        match r with
        | [] => [[c]]
        | g :: gs => (c :: g) :: gs

/-- `PATTERNS.IP_V4.test`. -/
def testIpV4 (s : String) : Bool :=
  match splitOnChar '.' s.toList with
  | [a, b, c, d] =>
      octetMatch a && octetMatch b && octetMatch c && octetMatch d
  | _ => false

/-- One character of `PATTERNS.SAFE_TEXT`: `[a-zA-Z0-9\s\-_.]`. -/
def safeTextChar (c : Char) : Bool :=
  c.isAlpha || c.isDigit || isJsSpace c || c = '-' || c = '_' || c = '.'

/-- `PATTERNS.SAFE_TEXT.test`: `^[a-zA-Z0-9\s\-_.]+$`. -/
def testSafeText (s : String) : Bool :=
  !s.toList.isEmpty && s.toList.all safeTextChar

/-- `PATTERNS.FILENAME.test`: `^[a-zA-Z0-9\-_]+$`. -/
def testFilename (s : String) : Bool :=
  !s.toList.isEmpty && s.toList.all (fun c => c.isAlpha || c.isDigit || c = '-' || c = '_')

/-- One character of `[A-F0-9]`. -/
def hexUpperChar (c : Char) : Bool :=
  c.isDigit || ('A' ≤ c && c ≤ 'F')

/-- `PATTERNS.MASTER_KEY.test`: `^[A-F0-9]{4}-[A-F0-9]{4}-[A-F0-9]{4}-[A-F0-9]{4}$`
(the group class excludes the dash, so the regex matches exactly when the
string splits on dashes into four 4-character hex-upper groups). -/
def testMasterKey (s : String) : Bool :=
  match s.splitOn "-" with
  | [a, b, c, d] =>
      (a.toList.length == 4 && a.toList.all hexUpperChar) &&
      (b.toList.length == 4 && b.toList.all hexUpperChar) &&
      (c.toList.length == 4 && c.toList.all hexUpperChar) &&
      (d.toList.length == 4 && d.toList.all hexUpperChar)
  | _ => false

/-- `PATTERNS.PORT.test`: `^[0-9]+$`. -/
def testPort (s : String) : Bool :=
  !s.toList.isEmpty && s.toList.all Char.isDigit

/-- `PATTERNS.SERIAL.test`: `^[A-Z0-9\-]+$`. -/
def testSerial (s : String) : Bool :=
  !s.toList.isEmpty && s.toList.all (fun c => ('A' ≤ c && c ≤ 'Z') || c.isDigit || c = '-')

/-- The PASSWORD schema: `/^[\x20-\x7E]+$/.test(cleanInput) && cleanInput.length >= 8`. -/
def testPassword (s : String) : Bool :=
  !s.toList.isEmpty && s.toList.all (fun c => 0x20 ≤ c.toNat && c.toNat ≤ 0x7E) &&
  8 ≤ s.toList.length

/-- `pat` occurs in `s` starting at position `i`. -/
def subAt (pat s : List Char) (i : Nat) : Bool :=
  (s.drop i).take pat.length == pat

/-- `pat` occurs somewhere in `s` (a plain-substring regex test). -/
def containsSub (pat s : List Char) : Bool :=
  (List.range (s.length + 1)).any (fun i => subAt pat s i)

/-- A regex word character (`\w`), for `\b` boundaries. -/
def wordChar (c : Char) : Bool :=
  c.isAlphanum || c = '_'

/-- Characters not matched by `.` in a JS regex without the `s` flag. -/
def lineBreakChar (c : Char) : Bool :=
  c = '\n' || c = '\r' || c.toNat = 0x2028 || c.toNat = 0x2029

/-- `\bw\b` matches in `s` at position `i`. -/
def occursWordAt (s w : List Char) (i : Nat) : Bool :=
  subAt w s i &&
  (match i with
   | 0 => true
   | j + 1 => !wordChar (s.getD j ' ')) &&
  !wordChar (s.getD (i + w.length) ' ')

/-- Case-insensitive `\bw1\b.*\bw2\b` (the SQL-keyword attack patterns):
`w1` and `w2` occur as whole words, `w2` after `w1`, with no line break
between them.  `w1`, `w2` are given lowercase. -/
def sqlPairHit (w1 w2 s : List Char) : Bool :=
  let ls := s.map Char.toLower
  (List.range (ls.length + 1)).any (fun i =>
    occursWordAt ls w1 i &&
    (List.range (ls.length + 1)).any (fun j =>
      decide (i + w1.length ≤ j) && occursWordAt ls w2 j &&
      ((ls.drop (i + w1.length)).take (j - (i + w1.length))).all (fun c => !lineBreakChar c)))

/-- Case-insensitive substring test. -/
def ciContains (pat s : List Char) : Bool :=
  containsSub pat (s.map Char.toLower)

/-- `ATTACK_VECTORS.some(p => p.test(input))`: the fixed denylist of
attack-signature regexes, in source order. -/
def detectAttackMatch (s : List Char) : Bool :=
  sqlPairHit "union".toList "select".toList s ||
  sqlPairHit "select".toList "from".toList s ||
  sqlPairHit "insert".toList "into".toList s ||
  sqlPairHit "update".toList "set".toList s ||
  sqlPairHit "delete".toList "from".toList s ||
  containsSub "--".toList s ||
  containsSub "/*".toList s ||
  containsSub ";".toList s ||
  containsSub "|".toList s ||
  containsSub "`".toList s ||
  containsSub "$(".toList s ||
  containsSub "&".toList s ||
  containsSub "../".toList s ||
  containsSub "..\\".toList s ||
  ciContains "<script".toList s ||
  ciContains "javascript:".toList s ||
  ciContains "onerror=".toList s ||
  ciContains "onload=".toList s

/-- The `ValidationContext` union type. -/
inductive ValidationContext where
  | IP | PORT | SAFE_TEXT | FILENAME | MASTER_KEY | SERIAL | PASSWORD
deriving DecidableEq

def ctxName : ValidationContext → String
  | .IP => "IP"
  | .PORT => "PORT"
  | .SAFE_TEXT => "SAFE_TEXT"
  | .FILENAME => "FILENAME"
  | .MASTER_KEY => "MASTER_KEY"
  | .SERIAL => "SERIAL"
  | .PASSWORD => "PASSWORD"

/-- `InputValidator.detectAttackVectors`: skipped entirely for the
PASSWORD context; otherwise throws `SecurityException` on the first
matching signature.  Note: it does **not** log the violation. -/
def detectAttackVectors (input : String) (context : ValidationContext) :
    Except String Unit :=
  if context = .PASSWORD then .ok ()
  else if detectAttackMatch input.toList then
    .error ("Malicious Pattern Detected: " ++ ctxName context)
  else .ok ()

/-- `parseInt(cleanInput, 10)` on a string that already matched
`^[0-9]+$`: fold the decimal digits. -/
def parsePort (s : String) : Nat :=
  s.toList.foldl (fun n c => n * 10 + (c.toNat - 48)) 0

/-- The `switch (context)` schema enforcement of `InputValidator.validate`,
as a boolean `isValid`. -/
def schemaValid (context : ValidationContext) (cleanInput : String) : Bool :=
  match context with
  | .IP =>
      testIpV4 cleanInput &&
      !(cleanInput == "0.0.0.0" || cleanInput == "255.255.255.255")
  | .PORT =>
      testPort cleanInput &&
      (decide (0 < parsePort cleanInput) && decide (parsePort cleanInput ≤ 65535))
  | .SAFE_TEXT => testSafeText cleanInput
  | .FILENAME => testFilename cleanInput && decide (cleanInput.toList.length ≤ 255)
  | .MASTER_KEY => testMasterKey cleanInput.toUpper
  | .SERIAL => testSerial cleanInput.toUpper
  | .PASSWORD => testPassword cleanInput

/-- The masked copy of the offending value recorded by `logViolation`:
fully replaced for PASSWORD / MASTER_KEY, otherwise truncated to the
first 50 characters with an ellipsis marker when longer. -/
def maskedValue (input : String) (context : ValidationContext) : String :=
  if context = .PASSWORD || context = .MASTER_KEY then "********"
  else (input.toList.take 50).asString ++ (if 50 < input.toList.length then "..." else "")

/-- `InputValidator.logViolation`: append a masked `SECURITY_VIOLATION`
record to the ledger; any failure of the append is caught and swallowed
(the state is left unchanged). -/
def logViolation (st : LedgerState) (input : String) (context : ValidationContext)
    (fieldName : String) (t : Nat) (sig : String) : LedgerState :=
  let maskedInput := maskedValue input context
  match append hash st
      (.securityViolation "critical"
        ("Injection Blocked (" ++ ctxName context ++ "): " ++ fieldName)
        maskedInput (ctxName context)) t sig with
  | .ok (_, s1) => s1
  | .error _ => st

/-- `InputValidator.validate`: canonicalize; reject empty input (except
for SAFE_TEXT); attack-scan (except for PASSWORD); enforce the schema,
logging a masked violation on schema failure; return the canonical value,
upper-cased for MASTER_KEY and SERIAL. -/
def validate (st : LedgerState) (input : String) (context : ValidationContext)
    (fieldName : String) (t : Nat) (sig : String) :
    Except String String × LedgerState :=
  let cleanInput := canonicalize input
  if cleanInput = "" ∧ context ≠ .SAFE_TEXT then
    (.error (fieldName ++ " cannot be empty or whitespace only."), st)
  else
    match detectAttackVectors cleanInput context with
    | .error e => (.error e, st)
    | .ok _ =>
      if schemaValid context cleanInput = false then
        (.error ("Security Policy Violation: " ++ fieldName ++
           " format is invalid or contains prohibited characters."),
         logViolation hash st cleanInput context fieldName t sig)
      else if context = .MASTER_KEY ∨ context = .SERIAL then
        (.ok cleanInput.toUpper, st)
      else
        (.ok cleanInput, st)

/-! ## Derived notions and concrete fixtures -/

/-- A raised `SecurityException`, as a boolean on the result. -/
def isErr (e : Except String String) : Bool :=
  match e with
  | .error _ => true
  | .ok _ => false

/-- Whether a record is a tombstone for the given block index. -/
def tombstoneTargets : EventRecord → Nat → Bool
  | .tombstone ti _ _ _, n => ti == n
  | _, _ => false

/-- The projected item for a given block index, if any. -/
def findItem (items : List ProjectedItem) (i : Nat) : Option ProjectedItem :=
  items.find? (fun it => it.blockIndex == i)

/-- Run a sequence of core operations from a state. -/
def afterOps (ops : List CoreOp) (s : LedgerState) : LedgerState :=
  ops.foldl (fun st op => applyOp hash op st) s

/-- A concrete stand-in for SHA-256, used to instantiate the abstract
hash parameter on concrete runs. -/
def hashFx : String → String := fun s => "#" ++ s

/-- Fixture: the ledger right after `initialize`. -/
def stInit : LedgerState := applyOp hashFx (.initOp 10) initialState

/-- Fixture: one evidence record appended after initialization. -/
def stA : LedgerState := applyOp hashFx (.appendOp (.evidence "E1") 11 "g1") stInit

/-- Fixture: tombstone for block 1 appended on top of `stA`. -/
def stDel : LedgerState := applyOp hashFx (.deleteOp 1 "u" 20 "gd") stA

/-- Fixture: a second evidence record on top of `stA` (blocks 0, 1, 2). -/
def stB : LedgerState := applyOp hashFx (.appendOp (.evidence "E2") 12 "g2") stA

/-- Fixture: `deleteItem(4, "u")` on `stB` — the tombstone lands at block
index 3 and targets the not-yet-existing index 4. -/
def stDel4 : LedgerState := applyOp hashFx (.deleteOp 4 "u" 13 "g3") stB

/-- Fixture: `deleteItem(2, "u")` on `stDel4` — this tombstone for the
existing item 2 receives block index 4, which the earlier tombstone
already targets. -/
def stDel2 : LedgerState := applyOp hashFx (.deleteOp 2 "u" 14 "g4") stDel4

/-- Fixture: two further evidence records on top of `stA` (blocks 2, 3). -/
def stC : LedgerState :=
  applyOp hashFx (.appendOp (.evidence "E3") 13 "g3")
    (applyOp hashFx (.appendOp (.evidence "E2") 12 "g2") stA)

/-- Fixture: `lockItem(2, "u")` on top of the three evidence records. -/
def stLock : LedgerState := applyOp hashFx (.lockOp 2 "u" 14 "g4") stC

/-- Fixture: `unlockItem(2, "u")` after the lock. -/
def stUnlock : LedgerState := applyOp hashFx (.unlockOp 2 "u" 15 "g5") stLock

end KeySight

/-! ## Ledger invariants -/

namespace KeySight

variable (hash : String → String)

/-- The structural invariant maintained by every core operation: block at
position `i` has index `i`; position 0 is the genesis block (up to its
timestamp); every later block's `previousHash` is the hash of the JSON
serialization of its predecessor; payload-store keys are existing
non-genesis indices; an established key implies a non-empty chain; and
without a key the ledger is still the fresh instance. -/
structure Inv (s : LedgerState) : Prop where
  chainIdx : ∀ (i : Nat) (h : i < s.chain.length), (s.chain[i]).index = i
  genesis0 : ∀ (h0 : 0 < s.chain.length),
      s.chain[0] = genesisBlock (s.chain[0]).timestamp
  links : ∀ (i : Nat) (h1 : i < s.chain.length) (h2 : i + 1 < s.chain.length),
      (s.chain[i + 1]).previousHash = hash (serializeBlock (s.chain[i]))
  storageKeys : ∀ kv ∈ s.storage, 1 ≤ kv.1 ∧ kv.1 < s.chain.length
  keyChain : s.encryptionKey = true → s.chain ≠ []
  lockedInit : s.encryptionKey = false → s = initialState

theorem inv_initialState : Inv hash initialState := by
  constructor <;> simp [initialState]

/-- Successful `append` unfolded: the key is established, the chain has a
last block, and the new block / new state have the stated shape. -/
theorem append_eq_ok {s s' : LedgerState} {d : EventRecord} {t : Nat} {g : String}
    {b : StorageBlock} (h : append hash s d t g = .ok (b, s')) :
    ∃ prev, s.encryptionKey = true ∧ s.chain.getLast? = some prev ∧
      b = ⟨prev.index + 1, hash (serializeBlock prev), t, hash (serializeRecord d), g⟩ ∧
      s' = { s with chain := s.chain ++ [b],
                    storage := (prev.index + 1, d) :: s.storage } := by
  unfold append at h
  split at h
  · exact absurd h (by simp)
  · next hk =>
    split at h
    · exact absurd h (by simp)
    · next prev hprev =>
      refine ⟨prev, by revert hk; cases s.encryptionKey <;> simp, hprev, ?_, ?_⟩ <;>
        simp only [Except.ok.injEq, Prod.mk.injEq] at h
      · exact h.1.symm
      · rw [← h.2, ← h.1]

theorem inv_initLedger {s : LedgerState} (hinv : Inv hash s) (t : Nat) :
    Inv hash (initLedger s t) := by
  show Inv hash (if s.chain.length = 0 then
      { chain := s.chain ++ [genesisBlock t], storage := s.storage, encryptionKey := true }
    else { chain := s.chain, storage := s.storage, encryptionKey := true })
  split
  · next hcond =>
    have hc : s.chain = [] := List.length_eq_zero.mp (by simpa using hcond)
    have hstor : s.storage = [] := by
      cases hs : s.storage with
      | nil => rfl
      | cons kv l =>
        have h2 := (hinv.storageKeys kv (by rw [hs]; exact List.mem_cons_self kv l)).2
        rw [hc] at h2
        simp at h2
    have hstate : LedgerState.mk (s.chain ++ [genesisBlock t]) s.storage true
        = LedgerState.mk [genesisBlock t] [] true := by
      rw [hc, hstor]
      rfl
    rw [hstate]
    constructor
    · intro i hi
      simp only [List.length_singleton] at hi
      have hi0 : i = 0 := by omega
      subst hi0
      simp [genesisBlock]
    · intro h0
      simp [genesisBlock]
    · intro i hi1 hi2
      simp only [List.length_singleton] at hi2
      omega
    · intro kv hkv
      simp at hkv
    · intro _
      simp
    · intro hfalse
      simp at hfalse
  · next hcond =>
    have hne : s.chain ≠ [] := by
      intro hc
      exact hcond (by simp [hc])
    constructor
    · exact hinv.chainIdx
    · exact hinv.genesis0
    · exact hinv.links
    · exact hinv.storageKeys
    · intro _
      exact hne
    · intro hfalse
      exact absurd hfalse (by simp)

theorem inv_append {s s' : LedgerState} {d : EventRecord} {t : Nat} {g : String}
    {b : StorageBlock} (hinv : Inv hash s) (h : append hash s d t g = .ok (b, s')) :
    Inv hash s' := by
  obtain ⟨prev, hk, hlast, hb, hs'⟩ := append_eq_ok hash h
  have hne : s.chain ≠ [] := hinv.keyChain hk
  have hpos : 0 < s.chain.length := List.length_pos.mpr hne
  have hprev : prev = s.chain.getLast hne := by
    rw [List.getLast?_eq_getLast s.chain hne] at hlast
    exact (Option.some.injEq _ _ ▸ hlast).symm
  have hidx : prev.index = s.chain.length - 1 := by
    rw [hprev, List.getLast_eq_getElem s.chain hne]
    exact hinv.chainIdx (s.chain.length - 1) (by omega)
  subst hs'
  constructor
  · intro i hi
    simp only [List.length_append, List.length_cons, List.length_nil] at hi
    have hib : i < (s.chain ++ [b]).length := by
      simp only [List.length_append, List.length_cons, List.length_nil]
      omega
    show ((s.chain ++ [b])[i]).index = i
    by_cases hin : i < s.chain.length
    · rw [List.getElem_append_left hin]
      exact hinv.chainIdx i hin
    · have hieq : i = s.chain.length := by omega
      rw [List.getElem_append_right (by omega)]
      simp only [hieq, Nat.sub_self, List.getElem_cons_zero, hb]
      omega
  · intro h0
    have h0b : 0 < (s.chain ++ [b]).length := by
      simp only [List.length_append, List.length_cons, List.length_nil]
      omega
    show (s.chain ++ [b])[0] = genesisBlock ((s.chain ++ [b])[0]).timestamp
    rw [List.getElem_append_left hpos]
    exact hinv.genesis0 hpos
  · intro i hi1 hi2
    simp only [List.length_append, List.length_cons, List.length_nil] at hi1 hi2
    have hib1 : i < (s.chain ++ [b]).length := by
      simp only [List.length_append, List.length_cons, List.length_nil]
      omega
    have hib2 : i + 1 < (s.chain ++ [b]).length := by
      simp only [List.length_append, List.length_cons, List.length_nil]
      omega
    show ((s.chain ++ [b])[i + 1]).previousHash
        = hash (serializeBlock ((s.chain ++ [b])[i]))
    by_cases hin : i + 1 < s.chain.length
    · rw [List.getElem_append_left hin,
        List.getElem_append_left (Nat.lt_of_succ_lt hin)]
      exact hinv.links i (Nat.lt_of_succ_lt hin) hin
    · have hieq : i + 1 = s.chain.length := by omega
      rw [List.getElem_append_right (by omega)]
      rw [List.getElem_append_left (by omega)]
      have hibo : i < s.chain.length := by omega
      have hgp : s.chain[i] = prev := by
        rw [hprev, List.getLast_eq_getElem s.chain hne]
        congr 1
        omega
      simp only [hieq, Nat.sub_self, List.getElem_cons_zero, hb, hgp]
  · intro kv hkv
    simp only [List.length_append, List.length_cons, List.length_nil]
    rcases List.mem_cons.mp hkv with hhd | htl
    · rw [hhd]
      refine ⟨by omega, by omega⟩
    · have hsk := hinv.storageKeys kv htl
      omega
  · intro _
    simp
  · intro hfalse
    simp only at hfalse
    rw [hfalse] at hk
    exact absurd hk (by simp)

theorem inv_applyOp {s : LedgerState} (hinv : Inv hash s) (op : CoreOp) :
    Inv hash (applyOp hash op s) := by
  cases op with
  | initOp t =>
    simpa only [applyOp, runOp] using inv_initLedger hash hinv t
  | appendOp d t g =>
    simp only [applyOp, runOp]
    split
    · next b s1 heq => exact inv_append hash hinv heq
    · exact hinv
  | lockOp i u t g =>
    simp only [applyOp, runOp]
    split
    · next r s1 heq =>
      unfold lockItem at heq
      split at heq
      · next b s2 happ =>
        simp only [Except.ok.injEq, Prod.mk.injEq] at heq
        rw [← heq.2]
        exact inv_append hash hinv happ
      · exact absurd heq (by simp)
    · exact hinv
  | unlockOp i u t g =>
    simp only [applyOp, runOp]
    split
    · next r s1 heq =>
      unfold unlockItem at heq
      split at heq
      · next b s2 happ =>
        simp only [Except.ok.injEq, Prod.mk.injEq] at heq
        rw [← heq.2]
        exact inv_append hash hinv happ
      · exact absurd heq (by simp)
    · exact hinv
  | deleteOp i u t g =>
    simp only [applyOp, runOp]
    split
    · next r s1 heq =>
      unfold deleteItem at heq
      split at heq
      · next b s2 happ =>
        simp only [Except.ok.injEq, Prod.mk.injEq] at heq
        rw [← heq.2]
        exact inv_append hash hinv happ
      · exact absurd heq (by simp)
    · exact hinv
  | materializeOp => exact hinv
  | decryptOp i => exact hinv
  | chainLengthOp => exact hinv
  | storageUsageOp => exact hinv

theorem reachable_inv {s : LedgerState} (h : Reachable hash s) : Inv hash s := by
  induction h with
  | base => exact inv_initialState hash
  | step op _ ih => exact inv_applyOp hash ih op

end KeySight

/-! ## Substring and character lemmas -/

namespace KeySight

theorem subAt_iff {pat s : List Char} {i : Nat} :
    subAt pat s i = true ↔ (s.drop i).take pat.length = pat := by
  unfold subAt
  exact beq_iff_eq

theorem containsSub_iff {pat s : List Char} :
    containsSub pat s = true ↔ ∃ a b, s = a ++ pat ++ b := by
  unfold containsSub
  rw [List.any_eq_true]
  constructor
  · rintro ⟨i, _, hsub⟩
    rw [subAt_iff] at hsub
    refine ⟨s.take i, s.drop (i + pat.length), ?_⟩
    conv_lhs => rw [← List.take_append_drop i s]
    rw [List.append_assoc]
    congr 1
    conv_lhs => rw [← List.take_append_drop pat.length (s.drop i)]
    rw [hsub, List.drop_drop]
  · rintro ⟨a, b, rfl⟩
    refine ⟨a.length, ?_, ?_⟩
    · rw [List.mem_range]
      simp only [List.length_append]
      omega
    · rw [subAt_iff, List.append_assoc, List.drop_left, List.take_left]

theorem containsSub_trans {p q s : List Char} (h1 : containsSub p q = true)
    (h2 : containsSub q s = true) : containsSub p s = true := by
  rw [containsSub_iff] at h1 h2 ⊢
  obtain ⟨a, b, rfl⟩ := h1
  obtain ⟨c, d, rfl⟩ := h2
  exact ⟨c ++ a, b ++ d, by simp⟩

theorem containsSub_map {p s : List Char} (f : Char → Char)
    (h : containsSub p s = true) : containsSub (p.map f) (s.map f) = true := by
  rw [containsSub_iff] at h ⊢
  obtain ⟨a, b, rfl⟩ := h
  exact ⟨a.map f, b.map f, by simp⟩

theorem containsSub_subset {p s : List Char} (h : containsSub p s = true) :
    ∀ c ∈ p, c ∈ s := by
  rw [containsSub_iff] at h
  obtain ⟨a, b, rfl⟩ := h
  intro c hc
  simp [hc]

theorem containsSub_length {p s : List Char} (h : containsSub p s = true) :
    p.length ≤ s.length := by
  rw [containsSub_iff] at h
  obtain ⟨a, b, rfl⟩ := h
  simp only [List.length_append]
  omega

theorem sqlPairHit_subset {w1 w2 s : List Char} (h : sqlPairHit w1 w2 s = true) :
    ∀ c ∈ w1, c ∈ s.map Char.toLower := by
  unfold sqlPairHit at h
  rw [List.any_eq_true] at h
  obtain ⟨i, hir, hi⟩ := h
  simp only [Bool.and_eq_true] at hi
  have hocc := hi.1
  unfold occursWordAt at hocc
  simp only [Bool.and_eq_true] at hocc
  have hsub := hocc.1.1
  exact containsSub_subset (List.any_eq_true.mpr ⟨i, hir, hsub⟩)

theorem toLower_of_isDigit {c : Char} (h : c.isDigit = true) : c.toLower = c := by
  unfold Char.toLower
  show (if c.toNat ≥ 65 ∧ c.toNat ≤ 90 then Char.ofNat (c.toNat + 32) else c) = c
  rw [if_neg]
  intro hcon
  unfold Char.isDigit at h
  simp only [Bool.and_eq_true, decide_eq_true_eq, ge_iff_le, Char.le_def] at h
  obtain ⟨h1, h2⟩ := h
  obtain ⟨h3, h4⟩ := hcon
  unfold Char.toNat at h3 h4
  have h2n : c.val.toNat ≤ (57 : UInt32).toNat := h2
  have h57 : (57 : UInt32).toNat = 57 := by decide
  omega

theorem toLower_digit_or_dot {c : Char} (h : c.isDigit = true ∨ c = '.') :
    c.toLower.isDigit = true ∨ c.toLower = '.' := by
  rcases h with h | h
  · rw [toLower_of_isDigit h]
    exact Or.inl h
  · subst h
    exact Or.inr (by decide)

end KeySight

namespace KeySight

theorem detect_of_containsSub_dashdash {l : List Char}
    (h : containsSub "--".toList l = true) : detectAttackMatch l = true := by
  unfold detectAttackMatch
  simp [show containsSub ['-', '-'] l = true from h]

theorem detect_of_containsSub_semicolon {l : List Char}
    (h : containsSub ";".toList l = true) : detectAttackMatch l = true := by
  unfold detectAttackMatch
  simp [show containsSub [';'] l = true from h]

theorem detect_of_containsSub_dotdotslash {l : List Char}
    (h : containsSub "../".toList l = true) : detectAttackMatch l = true := by
  unfold detectAttackMatch
  simp [show containsSub ['.', '.', '/'] l = true from h]

theorem detect_of_containsSub_script {l : List Char}
    (h : containsSub "<script>".toList l = true) : detectAttackMatch l = true := by
  have hm := containsSub_map Char.toLower h
  have heq : "<script>".toList.map Char.toLower = "<script>".toList := by decide
  rw [heq] at hm
  have hci : ciContains "<script".toList l = true := by
    unfold ciContains
    exact containsSub_trans (by decide) hm
  unfold detectAttackMatch
  simp [show ciContains ['<', 's', 'c', 'r', 'i', 'p', 't'] l = true from hci]

/-- The characters of an exactly matched octet are decimal digits. -/
theorem octetMatch_digits {g : List Char} (h : octetMatch g = true) :
    ∀ c ∈ g, c.isDigit = true := by
  unfold octetMatch at h
  have hdig : ∀ c : Char, ('0' ≤ c ∧ c ≤ '9') → c.isDigit = true := by
    intro c hc
    unfold Char.isDigit
    simp only [Bool.and_eq_true, decide_eq_true_eq, ge_iff_le]
    exact hc
  have hdig5 : ∀ c : Char, ('0' ≤ c ∧ c ≤ '5') → c.isDigit = true := by
    intro c hc
    refine hdig c ⟨hc.1, le_trans hc.2 (by decide)⟩
  have hdig4 : ∀ c : Char, ('0' ≤ c ∧ c ≤ '4') → c.isDigit = true := by
    intro c hc
    refine hdig c ⟨hc.1, le_trans hc.2 (by decide)⟩
  match g, h with
  | [c], h =>
    intro x hx
    simp only [List.mem_singleton] at hx
    subst hx
    exact h
  | [c1, c2], h =>
    simp only [Bool.and_eq_true] at h
    intro x hx
    rcases List.mem_pair.mp hx with rfl | rfl
    · exact h.1
    · exact h.2
  | [c1, c2, c3], h =>
    simp only [Bool.or_eq_true, Bool.and_eq_true, decide_eq_true_eq] at h
    intro x hx
    simp only [List.mem_cons, List.mem_singleton, List.not_mem_nil, or_false] at hx
    rcases h with (h | h) | h
    · obtain ⟨⟨⟨h1, h2⟩, h3⟩, h4⟩ := h
      rcases hx with rfl | rfl | rfl
      · subst h1; decide
      · subst h2; decide
      · exact hdig5 x ⟨h3, h4⟩
    · obtain ⟨⟨⟨h1, h2⟩, h3⟩, h4⟩ := h
      rcases hx with rfl | rfl | rfl
      · subst h1; decide
      · exact hdig4 x ⟨h2, h3⟩
      · exact h4
    · obtain ⟨⟨h1, h2⟩, h3⟩ := h
      rcases hx with rfl | rfl | rfl
      · rcases h1 with rfl | rfl <;> decide
      · exact h2
      · exact h3

theorem splitOnChar_ne_nil (sep : Char) (cs : List Char) : splitOnChar sep cs ≠ [] := by
  cases cs with
  | nil => simp [splitOnChar]
  | cons c rest =>
    unfold splitOnChar
    by_cases hc : c = sep
    · simp [hc]
    · simp only [hc, if_false, if_neg hc]
      cases splitOnChar sep rest <;> simp

/-- Every character of a split-up list is the separator or a member of one
of the groups. -/
theorem splitOnChar_mem (sep : Char) {cs : List Char} {c : Char} (hc : c ∈ cs) :
    c = sep ∨ ∃ g ∈ splitOnChar sep cs, c ∈ g := by
  induction cs with
  | nil => simp at hc
  | cons d rest ih =>
    unfold splitOnChar
    by_cases hd : d = sep
    · subst hd
      rcases List.mem_cons.mp hc with rfl | hrest
      · exact Or.inl rfl
      · rcases ih hrest with h | ⟨g, hg, hcg⟩
        · exact Or.inl h
        · exact Or.inr ⟨g, by simp [hg], hcg⟩
    · rw [if_neg hd]
      cases hr : splitOnChar sep rest with
      | nil => exact absurd hr (splitOnChar_ne_nil sep rest)
      | cons g0 gs =>
        rcases List.mem_cons.mp hc with rfl | hrest
        · exact Or.inr ⟨c :: g0, by simp, by simp⟩
        · rcases ih hrest with h | ⟨g, hg, hcg⟩
          · exact Or.inl h
          · rw [hr] at hg
            rcases List.mem_cons.mp hg with rfl | hgs
            · exact Or.inr ⟨d :: g, by simp, by simp [hcg]⟩
            · exact Or.inr ⟨g, by simp [hgs], hcg⟩

/-- A string accepted by the IPv4 pattern consists of digits and dots. -/
theorem testIpV4_chars {s : String} (h : testIpV4 s = true) :
    ∀ c ∈ s.toList, c.isDigit = true ∨ c = '.' := by
  unfold testIpV4 at h
  split at h
  · next a b c d heq =>
    simp only [Bool.and_eq_true] at h
    intro x hx
    rcases splitOnChar_mem '.' hx with hdot | ⟨g, hg, hxg⟩
    · exact Or.inr hdot
    · rw [heq] at hg
      left
      simp only [List.mem_cons, List.not_mem_nil, or_false] at hg
      rcases hg with rfl | rfl | rfl | rfl
      · exact octetMatch_digits h.1.1.1 x hxg
      · exact octetMatch_digits h.1.1.2 x hxg
      · exact octetMatch_digits h.1.2 x hxg
      · exact octetMatch_digits h.2 x hxg
  · exact absurd h (by simp)

end KeySight

namespace KeySight

/-- No attack signature fires on a string made of digits and dots: every
pattern in the denylist requires at least one character outside that
alphabet. -/
theorem detect_false_digits_dots {cs : List Char}
    (hcs : ∀ c ∈ cs, c.isDigit = true ∨ c = '.') :
    detectAttackMatch cs = false := by
  have hno : ∀ d : Char, d.isDigit = false → d ≠ '.' → d ∉ cs := by
    intro d hd1 hd2 hmem
    rcases hcs d hmem with h | h
    · rw [h] at hd1
      exact absurd hd1 (by simp)
    · exact hd2 h
  have hnoL : ∀ d : Char, d.isDigit = false → d ≠ '.' → d ∉ cs.map Char.toLower := by
    intro d hd1 hd2 hmem
    rw [List.mem_map] at hmem
    obtain ⟨a, ha, rfl⟩ := hmem
    rcases toLower_digit_or_dot (hcs a ha) with h | h
    · rw [h] at hd1
      exact absurd hd1 (by simp)
    · exact hd2 h
  cases hd : detectAttackMatch cs with
  | false => rfl
  | true =>
    exfalso
    unfold detectAttackMatch at hd
    simp only [Bool.or_eq_true] at hd
    rcases hd with ((((((((((((((((h | h) | h) | h) | h) | h) | h) | h) | h) | h) |
        h) | h) | h) | h) | h) | h) | h) | h
    · exact hnoL 'u' (by decide) (by decide) (sqlPairHit_subset h 'u' (by decide))
    · exact hnoL 's' (by decide) (by decide) (sqlPairHit_subset h 's' (by decide))
    · exact hnoL 'i' (by decide) (by decide) (sqlPairHit_subset h 'i' (by decide))
    · exact hnoL 'u' (by decide) (by decide) (sqlPairHit_subset h 'u' (by decide))
    · exact hnoL 'd' (by decide) (by decide) (sqlPairHit_subset h 'd' (by decide))
    · exact hno '-' (by decide) (by decide) (containsSub_subset h '-' (by decide))
    · exact hno '/' (by decide) (by decide) (containsSub_subset h '/' (by decide))
    · exact hno ';' (by decide) (by decide) (containsSub_subset h ';' (by decide))
    · exact hno '|' (by decide) (by decide) (containsSub_subset h '|' (by decide))
    · exact hno (Char.ofNat 96) (by decide) (by decide)
        (containsSub_subset h (Char.ofNat 96) (by decide))
    · exact hno '$' (by decide) (by decide) (containsSub_subset h '$' (by decide))
    · exact hno '&' (by decide) (by decide) (containsSub_subset h '&' (by decide))
    · exact hno '/' (by decide) (by decide) (containsSub_subset h '/' (by decide))
    · exact hno '\\' (by decide) (by decide) (containsSub_subset h '\\' (by decide))
    · exact hnoL '<' (by decide) (by decide) (containsSub_subset h '<' (by decide))
    · exact hnoL 'j' (by decide) (by decide) (containsSub_subset h 'j' (by decide))
    · exact hnoL 'o' (by decide) (by decide) (containsSub_subset h 'o' (by decide))
    · exact hnoL 'o' (by decide) (by decide) (containsSub_subset h 'o' (by decide))

theorem trimChars_sublist (cs : List Char) : (trimChars cs).Sublist cs := by
  unfold trimChars
  have h1 : (cs.dropWhile isJsSpace).Sublist cs := List.dropWhile_sublist _
  have h2 : ((cs.dropWhile isJsSpace).reverse.dropWhile isJsSpace).Sublist
      (cs.dropWhile isJsSpace).reverse := List.dropWhile_sublist _
  have h3 := List.reverse_sublist.mpr h2
  rw [List.reverse_reverse] at h3
  exact h3.trans h1

/-- On a string of printable ASCII, `canonicalize` only trims: NFKC is
the identity and no character is in the stripped control range. -/
theorem canonicalize_printable {x : String}
    (hx : ∀ c ∈ x.toList, 0x20 ≤ c.toNat ∧ c.toNat ≤ 0x7E) :
    canonicalize x = (trimChars x.toList).asString := by
  unfold canonicalize nfkcNormalize
  have hfil : x.toList.filter (fun c => !(isStrippedControl c)) = x.toList := by
    apply List.filter_eq_self.mpr
    intro c hc
    have hb := hx c hc
    simp only [Bool.not_eq_true']
    by_contra hcon
    rw [Bool.not_eq_false] at hcon
    unfold isStrippedControl at hcon
    simp only [Bool.or_eq_true, Bool.and_eq_true, decide_eq_true_eq] at hcon
    omega
  show (trimChars (x.toList.filter (fun c => !(isStrippedControl c)))).asString
      = (trimChars x.toList).asString
  rw [hfil]

end KeySight

/-! ## Characterizations of `validate` -/

namespace KeySight

variable (hash : String → String)

theorem validate_eq (st : LedgerState) (x : String) (context : ValidationContext)
    (f : String) (t : Nat) (g : String) :
    validate hash st x context f t g =
      if canonicalize x = "" ∧ context ≠ .SAFE_TEXT then
        (.error (f ++ " cannot be empty or whitespace only."), st)
      else
        match detectAttackVectors (canonicalize x) context with
        | .error e => (.error e, st)
        | .ok _ =>
          if schemaValid context (canonicalize x) = false then
            (.error ("Security Policy Violation: " ++ f ++
              " format is invalid or contains prohibited characters."),
             logViolation hash st (canonicalize x) context f t g)
          else if context = .MASTER_KEY ∨ context = .SERIAL then
            (.ok (canonicalize x).toUpper, st)
          else (.ok (canonicalize x), st) := rfl

theorem detectAttackVectors_ok {x : String} {context : ValidationContext}
    (h : detectAttackMatch x.toList = false ∨ context = .PASSWORD) :
    detectAttackVectors x context = .ok () := by
  unfold detectAttackVectors
  by_cases hp : context = .PASSWORD
  · rw [if_pos hp]
  · rw [if_neg hp]
    rcases h with h | h
    · have hnot : ¬(detectAttackMatch x.toList = true) := by
        rw [h]
        simp
      rw [if_neg hnot]
    · exact absurd h hp

theorem validate_err_of_schema_false {st : LedgerState} {x : String}
    {context : ValidationContext} {f : String} {t : Nat} {g : String}
    (h : schemaValid context (canonicalize x) = false) :
    ∃ msg, (validate hash st x context f t g).1 = .error msg := by
  rw [validate_eq]
  by_cases h1 : (canonicalize x = "" ∧ context ≠ .SAFE_TEXT)
  · rw [if_pos h1]
    exact ⟨_, rfl⟩
  · rw [if_neg h1]
    rcases hdv : detectAttackVectors (canonicalize x) context with e | u
    · exact ⟨e, rfl⟩
    · dsimp only
      rw [if_pos h]
      exact ⟨_, rfl⟩

theorem validate_attack_err {st : LedgerState} {x : String}
    {context : ValidationContext} {f : String} {t : Nat} {g : String}
    (hne : ¬(canonicalize x = "" ∧ context ≠ .SAFE_TEXT))
    (hctx : context ≠ .PASSWORD)
    (hda : detectAttackMatch (canonicalize x).toList = true) :
    validate hash st x context f t g
      = (.error ("Malicious Pattern Detected: " ++ ctxName context), st) := by
  rw [validate_eq, if_neg hne]
  have hdv : detectAttackVectors (canonicalize x) context
      = .error ("Malicious Pattern Detected: " ++ ctxName context) := by
    unfold detectAttackVectors
    rw [if_neg hctx, if_pos hda]
  rw [hdv]

theorem validate_schema_failure {st : LedgerState} {x : String}
    {context : ValidationContext} {f : String} {t : Nat} {g : String}
    (hne : ¬(canonicalize x = "" ∧ context ≠ .SAFE_TEXT))
    (hdv : detectAttackMatch (canonicalize x).toList = false ∨ context = .PASSWORD)
    (hschema : schemaValid context (canonicalize x) = false) :
    validate hash st x context f t g
      = (.error ("Security Policy Violation: " ++ f ++
          " format is invalid or contains prohibited characters."),
         logViolation hash st (canonicalize x) context f t g) := by
  rw [validate_eq, if_neg hne, detectAttackVectors_ok hdv]
  dsimp only
  rw [if_pos hschema]

theorem validate_ok {st : LedgerState} {x : String}
    {context : ValidationContext} {f : String} {t : Nat} {g : String}
    (hne : ¬(canonicalize x = "" ∧ context ≠ .SAFE_TEXT))
    (hdv : detectAttackMatch (canonicalize x).toList = false ∨ context = .PASSWORD)
    (hschema : schemaValid context (canonicalize x) = true)
    (hctx2 : ¬(context = .MASTER_KEY ∨ context = .SERIAL)) :
    validate hash st x context f t g = (.ok (canonicalize x), st) := by
  rw [validate_eq, if_neg hne, detectAttackVectors_ok hdv]
  dsimp only
  rw [if_neg (by simp [hschema]), if_neg hctx2]

end KeySight

/-! ## Claim theorems (part 1) -/

namespace KeySight

theorem reach_stInit : Reachable hashFx stInit :=
  Reachable.step (.initOp 10) Reachable.base

theorem reach_stA : Reachable hashFx stA :=
  Reachable.step (.appendOp (.evidence "E1") 11 "g1") reach_stInit

/-- C1: in every state reachable by `initialize` and successful `append`s,
block 0 is the genesis block with index 0, every block at position `i`
has index `i`, and every later block's `previousHash` equals the hash of
the JSON serialization of its predecessor block. -/
theorem hashChainInvariant (hash : String → String) {s : LedgerState}
    (hreach : Reachable hash s) :
    (∀ (h0 : 0 < s.chain.length),
        s.chain[0] = genesisBlock (s.chain[0]).timestamp) ∧
    (∀ (i : Nat) (hi : i < s.chain.length), (s.chain[i]).index = i) ∧
    (∀ (i : Nat) (hi1 : i < s.chain.length) (hi2 : i + 1 < s.chain.length),
        (s.chain[i + 1]).previousHash
          = hash (serializeBlock (s.chain[i]))) :=
  ⟨(reachable_inv hash hreach).genesis0, (reachable_inv hash hreach).chainIdx,
   (reachable_inv hash hreach).links⟩

/-- Witness for C1 at a concrete two-block ledger. -/
theorem hashChainInvariant_witness :
    (stA.chain.get ⟨1, by decide⟩).previousHash
      = hashFx (serializeBlock (stA.chain.get ⟨0, by decide⟩)) ∧
    (stA.chain.get ⟨0, by decide⟩).index = 0 :=
  ⟨(hashChainInvariant hashFx reach_stA).2.2 0 (by decide) (by decide),
   (hashChainInvariant hashFx reach_stA).2.1 0 (by decide)⟩

/-- C2 counterexample: in the uninitialized state, `decrypt` returns the
absence marker `null` (its `try/catch` swallows the key error) and the
projector returns the empty list — neither raises, contradicting the
claim that every reading operation raises. -/
theorem uninitializedReads_cex :
    runOp hashFx (.decryptOp 0) initialState = (.recOut none, initialState) ∧
    runOp hashFx .materializeOp initialState = (.itemsOut [], initialState) :=
  ⟨rfl, rfl⟩

/-- C2 amended: in the uninitialized state (reachable with no key
established — necessarily the fresh instance), `append` raises the
locked-storage error, `decrypt` returns `null` rather than raising (the
`try/catch` swallows the `getKey` throw), and `getAllItems` returns the
empty list since the chain is empty. -/
theorem uninitializedStateBehavior (hash : String → String) {s : LedgerState}
    (hreach : Reachable hash s) (hk : s.encryptionKey = false) :
    (∀ d t g, append hash s d t g
        = .error "Storage locked: Encryption key not initialized") ∧
    (∀ i, decrypt s i = none) ∧
    getAllItems s = [] := by
  have hs : s = initialState := (reachable_inv hash hreach).lockedInit hk
  subst hs
  exact ⟨fun d t g => rfl, fun i => rfl, rfl⟩

/-- Witness for the amended C2 at the fresh instance. -/
theorem uninitializedStateBehavior_witness :
    append hashFx initialState (.evidence "E") 0 "g"
        = .error "Storage locked: Encryption key not initialized" ∧
    decrypt initialState 3 = none :=
  ⟨(uninitializedStateBehavior hashFx Reachable.base rfl).1 (.evidence "E") 0 "g",
   (uninitializedStateBehavior hashFx Reachable.base rfl).2.1 3⟩

/-- C8: a successful `append` grows `chainLength` by exactly one, and no
core operation ever shrinks it. -/
theorem chainLengthMonotone (hash : String → String) (s : LedgerState) :
    (∀ d t g b s1, append hash s d t g = .ok (b, s1) →
        getChainLength s1 = getChainLength s + 1) ∧
    (∀ op : CoreOp, getChainLength s ≤ getChainLength (applyOp hash op s)) := by
  constructor
  · intro d t g b s1 h
    obtain ⟨prev, _, _, _, hs1⟩ := append_eq_ok hash h
    subst hs1
    simp [getChainLength]
  · intro op
    show s.chain.length ≤ (applyOp hash op s).chain.length
    cases op with
    | initOp t =>
      show s.chain.length ≤ (initLedger s t).chain.length
      have heq : initLedger s t = if s.chain.length = 0 then
          LedgerState.mk (s.chain ++ [genesisBlock t]) s.storage true
        else LedgerState.mk s.chain s.storage true := rfl
      rw [heq]
      split <;> simp
    | appendOp d t g =>
      simp only [applyOp, runOp]
      split
      · next b s1 heq =>
        obtain ⟨prev, _, _, _, hs1⟩ := append_eq_ok hash heq
        subst hs1
        simp
      · exact Nat.le_refl _
    | lockOp i u t g =>
      simp only [applyOp, runOp]
      split
      · next r s1 heq =>
        unfold lockItem at heq
        split at heq
        · next b s2 happ =>
          simp only [Except.ok.injEq, Prod.mk.injEq] at heq
          obtain ⟨prev, _, _, _, hs2⟩ := append_eq_ok hash happ
          rw [← heq.2, hs2]
          simp
        · exact absurd heq (by simp)
      · exact Nat.le_refl _
    | unlockOp i u t g =>
      simp only [applyOp, runOp]
      split
      · next r s1 heq =>
        unfold unlockItem at heq
        split at heq
        · next b s2 happ =>
          simp only [Except.ok.injEq, Prod.mk.injEq] at heq
          obtain ⟨prev, _, _, _, hs2⟩ := append_eq_ok hash happ
          rw [← heq.2, hs2]
          simp
        · exact absurd heq (by simp)
      · exact Nat.le_refl _
    | deleteOp i u t g =>
      simp only [applyOp, runOp]
      split
      · next r s1 heq =>
        unfold deleteItem at heq
        split at heq
        · next b s2 happ =>
          simp only [Except.ok.injEq, Prod.mk.injEq] at heq
          obtain ⟨prev, _, _, _, hs2⟩ := append_eq_ok hash happ
          rw [← heq.2, hs2]
          simp
        · exact absurd heq (by simp)
      · exact Nat.le_refl _
    | materializeOp => exact Nat.le_refl _
    | decryptOp i => exact Nat.le_refl _
    | chainLengthOp => exact Nat.le_refl _
    | storageUsageOp => exact Nat.le_refl _

/-- Witness for C8: appending one record to the initialized fixture. -/
theorem chainLengthMonotone_witness :
    getChainLength stA = getChainLength stInit + 1 ∧
    getChainLength stInit ≤ getChainLength (applyOp hashFx .materializeOp stInit) :=
  ⟨(chainLengthMonotone hashFx stInit).1 (.evidence "E1") 11 "g1" _ stA rfl,
   (chainLengthMonotone hashFx stInit).2 .materializeOp⟩

/-- C9: two `materialize` reads with no operation in between produce the
same item sequence, and the read leaves the state untouched. -/
theorem materializeIdempotent (hash : String → String)
    (s s1 s2 : LedgerState) (o1 o2 : OpOutput)
    (h1 : runOp hash .materializeOp s = (o1, s1))
    (h2 : runOp hash .materializeOp s1 = (o2, s2)) :
    o1 = o2 ∧ s2 = s1 := by
  simp only [runOp] at h1 h2
  cases h1
  cases h2
  exact ⟨rfl, rfl⟩

/-- Witness for C9 on the one-item fixture. -/
theorem materializeIdempotent_witness :
    (OpOutput.itemsOut (getAllItems stA)) = (OpOutput.itemsOut (getAllItems stA)) ∧
    stA = stA :=
  materializeIdempotent hashFx stA stA stA (.itemsOut (getAllItems stA))
    (.itemsOut (getAllItems stA)) rfl rfl

/-- C10: every context — including SAFE_TEXT, whose schema pattern
requires at least one character — rejects input whose canonical form is
empty. -/
theorem emptyInputAlwaysRejected (hash : String → String) (st : LedgerState)
    (x : String) (context : ValidationContext) (f : String) (t : Nat) (g : String)
    (hempty : canonicalize x = "") :
    isErr (validate hash st x context f t g).1 = true := by
  by_cases hctx : context = .SAFE_TEXT
  · subst hctx
    have hschema : schemaValid .SAFE_TEXT (canonicalize x) = false := by
      rw [hempty]
      decide
    obtain ⟨msg, hmsg⟩ := validate_err_of_schema_false hash hschema
    rw [hmsg]
    rfl
  · rw [validate_eq, if_pos ⟨hempty, hctx⟩]
    rfl

/-- Witness for C10: whitespace-only input in the SAFE_TEXT context. -/
theorem emptyInputAlwaysRejected_witness :
    canonicalize "   " = "" ∧
    isErr (validate hashFx initialState "   " .SAFE_TEXT "F" 0 "g").1 = true :=
  ⟨by decide,
   emptyInputAlwaysRejected hashFx initialState "   " .SAFE_TEXT "F" 0 "g" (by decide)⟩

end KeySight

/-! ## Claim theorems (part 2): validation layer -/

namespace KeySight

/-- C3 counterexample: `validate` accepts the public-range address
`8.8.8.8` and the leading-zero form `192.168.01.1` unchanged, although
the claim says both must raise. -/
theorem ipValidation_cex :
    (validate hashFx stInit "8.8.8.8" .IP "F" 0 "g").1 = .ok "8.8.8.8" ∧
    (validate hashFx stInit "192.168.01.1" .IP "F" 0 "g").1 = .ok "192.168.01.1" := by
  constructor <;> rfl

/-- C3 amended: for canonical input, `validate (x, IP, f)` returns `x`
unchanged exactly when `x` matches the dotted-quad pattern
`PATTERNS.IP_V4` — whose octet alternation also admits leading-zero
forms such as `01` and `001` — and `x` is neither `0.0.0.0` nor
`255.255.255.255`; no private/public range distinction is made. -/
theorem ipValidationAmended (hash : String → String) (st : LedgerState)
    (x : String) (f : String) (t : Nat) (g : String)
    (hcanon : canonicalize x = x) :
    (validate hash st x .IP f t g).1 = .ok x ↔
      (testIpV4 x = true ∧ x ≠ "0.0.0.0" ∧ x ≠ "255.255.255.255") := by
  constructor
  · intro h
    by_contra hcon
    have hschema : schemaValid .IP (canonicalize x) = false := by
      rw [hcanon]
      by_cases h000 : x = "0.0.0.0"
      · subst h000
        decide
      by_cases h255 : x = "255.255.255.255"
      · subst h255
        decide
      cases hip : testIpV4 x with
      | true => exact absurd ⟨hip, h000, h255⟩ hcon
      | false =>
        unfold schemaValid
        simp [hip]
    obtain ⟨msg, hmsg⟩ := validate_err_of_schema_false hash hschema
    rw [h] at hmsg
    simp at hmsg
  · rintro ⟨hip, h000, h255⟩
    have hchars := testIpV4_chars hip
    have hda : detectAttackMatch (canonicalize x).toList = false := by
      rw [hcanon]
      exact detect_false_digits_dots hchars
    have hschema : schemaValid .IP (canonicalize x) = true := by
      rw [hcanon]
      unfold schemaValid
      have h1 : (x == "0.0.0.0") = false := beq_eq_false_iff_ne.mpr h000
      have h2 : (x == "255.255.255.255") = false := beq_eq_false_iff_ne.mpr h255
      simp [hip, h1, h2]
    have hne : ¬(canonicalize x = "" ∧ (.IP : ValidationContext) ≠ .SAFE_TEXT) := by
      rintro ⟨h0, -⟩
      rw [hcanon] at h0
      subst h0
      exact absurd hip (by decide)
    have hok := @validate_ok hash st x .IP f t g hne (Or.inl hda) hschema (by simp)
    rw [hok]
    simp [hcanon]

/-- Witness for the amended C3 at a private-range address. -/
theorem ipValidationAmended_witness :
    (validate hashFx stInit "192.168.1.50" .IP "F" 0 "g").1 = .ok "192.168.1.50" :=
  (ipValidationAmended hashFx stInit "192.168.1.50" "F" 0 "g" (by decide)).mpr
    ⟨by decide, by decide, by decide⟩

/-- C4: for every context except PASSWORD, input whose canonical form
contains one of the signatures `' OR 1=1 --`, `; rm -rf`, `<script>`,
`../../etc/passwd` is rejected by the attack scan; for PASSWORD the scan
is skipped, so a printable-ASCII string of length at least 8 containing
such a signature is accepted. -/
theorem attackScanBehavior (hash : String → String) (st : LedgerState)
    (x : String) (f : String) (t : Nat) (g : String) :
    (∀ context : ValidationContext, context ≠ .PASSWORD →
      (containsSub "' OR 1=1 --".toList (canonicalize x).toList = true ∨
       containsSub "; rm -rf".toList (canonicalize x).toList = true ∨
       containsSub "<script>".toList (canonicalize x).toList = true ∨
       containsSub "../../etc/passwd".toList (canonicalize x).toList = true) →
      validate hash st x context f t g
        = (.error ("Malicious Pattern Detected: " ++ ctxName context), st)) ∧
    ((∀ c ∈ x.toList, 0x20 ≤ c.toNat ∧ c.toNat ≤ 0x7E) → 8 ≤ x.length →
      (containsSub "' OR 1=1 --".toList (canonicalize x).toList = true ∨
       containsSub "; rm -rf".toList (canonicalize x).toList = true ∨
       containsSub "<script>".toList (canonicalize x).toList = true ∨
       containsSub "../../etc/passwd".toList (canonicalize x).toList = true) →
      validate hash st x .PASSWORD f t g = (.ok (canonicalize x), st)) := by
  have hlen8 : ∀ (hsig : containsSub "' OR 1=1 --".toList (canonicalize x).toList = true ∨
       containsSub "; rm -rf".toList (canonicalize x).toList = true ∨
       containsSub "<script>".toList (canonicalize x).toList = true ∨
       containsSub "../../etc/passwd".toList (canonicalize x).toList = true),
      8 ≤ (canonicalize x).toList.length := by
    rintro (h | h | h | h)
    · have hl := containsSub_length h
      have : ("' OR 1=1 --".toList).length = 11 := by decide
      omega
    · have hl := containsSub_length h
      have : ("; rm -rf".toList).length = 8 := by decide
      omega
    · have hl := containsSub_length h
      have : ("<script>".toList).length = 8 := by decide
      omega
    · have hl := containsSub_length h
      have : ("../../etc/passwd".toList).length = 16 := by decide
      omega
  have hnempty : ∀ (hsig : containsSub "' OR 1=1 --".toList (canonicalize x).toList = true ∨
       containsSub "; rm -rf".toList (canonicalize x).toList = true ∨
       containsSub "<script>".toList (canonicalize x).toList = true ∨
       containsSub "../../etc/passwd".toList (canonicalize x).toList = true),
      canonicalize x ≠ "" := by
    intro hsig h0
    have hl := hlen8 hsig
    rw [h0] at hl
    simp at hl
  constructor
  · intro context hctx hsig
    have hda : detectAttackMatch (canonicalize x).toList = true := by
      rcases hsig with h | h | h | h
      · exact detect_of_containsSub_dashdash (containsSub_trans (by decide) h)
      · exact detect_of_containsSub_semicolon (containsSub_trans (by decide) h)
      · exact detect_of_containsSub_script h
      · exact detect_of_containsSub_dotdotslash (containsSub_trans (by decide) h)
    exact @validate_attack_err hash st x context f t g
      (fun hcon => hnempty hsig hcon.1) hctx hda
  · intro hx hxlen hsig
    have hcan := canonicalize_printable hx
    have htl : (canonicalize x).toList = trimChars x.toList := by
      rw [hcan]
      rfl
    have hsubl := trimChars_sublist x.toList
    have hprint : ∀ c ∈ (canonicalize x).toList, 0x20 ≤ c.toNat ∧ c.toNat ≤ 0x7E := by
      intro c hc
      rw [htl] at hc
      exact hx c (hsubl.subset hc)
    have hschema : schemaValid .PASSWORD (canonicalize x) = true := by
      show testPassword (canonicalize x) = true
      unfold testPassword
      have hl := hlen8 hsig
      simp only [Bool.and_eq_true]
      refine And.intro (And.intro ?_ ?_) ?_
      · simp only [Bool.not_eq_true']
        cases hni : (canonicalize x).toList with
        | nil =>
          rw [hni] at hl
          simp at hl
        | cons c cs => rfl
      · apply List.all_eq_true.mpr
        intro c hc
        have hp := hprint c hc
        simp only [Bool.and_eq_true, decide_eq_true_eq]
        exact hp
      · simp only [decide_eq_true_eq]
        exact hl
    exact @validate_ok hash st x .PASSWORD f t g (fun hcon => hnempty hsig hcon.1)
      (Or.inr rfl) hschema (by simp)

/-- Witness for C4: `; rm -rf data` is rejected in SAFE_TEXT and accepted
as a PASSWORD. -/
theorem attackScanBehavior_witness :
    validate hashFx stInit "; rm -rf data" .SAFE_TEXT "F" 0 "g"
      = (.error "Malicious Pattern Detected: SAFE_TEXT", stInit) ∧
    validate hashFx stInit "; rm -rf data" .PASSWORD "F" 0 "g"
      = (.ok "; rm -rf data", stInit) :=
  ⟨(attackScanBehavior hashFx stInit "; rm -rf data" "F" 0 "g").1 .SAFE_TEXT
      (by decide) (Or.inr (Or.inl (by decide))),
   (attackScanBehavior hashFx stInit "; rm -rf data" "F" 0 "g").2
      (by decide) (by decide) (Or.inr (Or.inl (by decide)))⟩

end KeySight

namespace KeySight

/-- C5 counterexample: an attack-signature rejection raises without
recording anything — the state is returned untouched, so no
`SECURITY_VIOLATION` record is appended, although the claim says every
rejection is logged. -/
theorem validationLogging_cex :
    validate hashFx stInit "<script>x" .SAFE_TEXT "F" 0 "g"
      = (.error "Malicious Pattern Detected: SAFE_TEXT", stInit) ∧
    stInit.chain.length = 1 := by
  constructor <;> rfl

/-- C5 amended: only schema-validation failures are recorded: on a schema
failure `validate` raises and the new state is `logViolation`'s, which —
when the ledger can append — appends one `SECURITY_VIOLATION` record
whose payload is masked (`********` for PASSWORD/MASTER_KEY, first 50
characters plus an ellipsis marker otherwise), and — when the append
fails — swallows the failure and leaves the state unchanged.
Attack-signature matches and empty-input rejections raise without
logging. -/
theorem validationLoggingAmended (hash : String → String) (st : LedgerState)
    (x : String) (context : ValidationContext) (f : String) (t : Nat) (g : String)
    (hne : ¬(canonicalize x = "" ∧ context ≠ .SAFE_TEXT))
    (hdv : detectAttackMatch (canonicalize x).toList = false ∨ context = .PASSWORD)
    (hschema : schemaValid context (canonicalize x) = false) :
    validate hash st x context f t g
      = (.error ("Security Policy Violation: " ++ f ++
          " format is invalid or contains prohibited characters."),
         logViolation hash st (canonicalize x) context f t g) ∧
    ((context = .PASSWORD ∨ context = .MASTER_KEY) →
        maskedValue (canonicalize x) context = "********") ∧
    (¬(context = .PASSWORD ∨ context = .MASTER_KEY) →
        maskedValue (canonicalize x) context
          = ((canonicalize x).toList.take 50).asString ++
            (if 50 < (canonicalize x).toList.length then "..." else "")) ∧
    (∀ prev, st.encryptionKey = true → st.chain.getLast? = some prev →
        logViolation hash st (canonicalize x) context f t g
          = { st with
              chain := st.chain ++ [⟨prev.index + 1, hash (serializeBlock prev), t,
                hash (serializeRecord (.securityViolation "critical"
                  ("Injection Blocked (" ++ ctxName context ++ "): " ++ f)
                  (maskedValue (canonicalize x) context) (ctxName context))), g⟩],
              storage := (prev.index + 1, EventRecord.securityViolation "critical"
                  ("Injection Blocked (" ++ ctxName context ++ "): " ++ f)
                  (maskedValue (canonicalize x) context) (ctxName context))
                :: st.storage }) ∧
    (st.encryptionKey = false →
        logViolation hash st (canonicalize x) context f t g = st) := by
  refine ⟨validate_schema_failure hash hne hdv hschema, ?_, ?_, ?_, ?_⟩
  · intro hc
    unfold maskedValue
    rw [if_pos]
    rcases hc with h | h <;> simp [h]
  · intro hc
    rw [not_or] at hc
    unfold maskedValue
    rw [if_neg]
    simp [hc.1, hc.2]
  · intro prev hk hlast
    unfold logViolation append
    dsimp only
    rw [hk, hlast]
    simp
  · intro hk
    unfold logViolation append
    dsimp only
    rw [hk]
    simp

/-- Witness for the amended C5: an out-of-range port is rejected and the
violation is appended to the initialized fixture ledger, masked by
truncation. -/
theorem validationLoggingAmended_witness :
    validate hashFx stInit "70000" .PORT "F" 99 "G"
      = (.error "Security Policy Violation: F format is invalid or contains prohibited characters.",
         logViolation hashFx stInit "70000" .PORT "F" 99 "G") ∧
    maskedValue "70000" .PORT = "70000" ∧
    (logViolation hashFx stInit "70000" .PORT "F" 99 "G").chain.length = 2 :=
  ⟨(validationLoggingAmended hashFx stInit "70000" .PORT "F" 99 "G"
      (by decide) (Or.inl (by decide)) (by decide)).1,
   by decide, by decide⟩

end KeySight

namespace KeySight

/-- C6: after three evidence appends and `lockItem(2, "u")`, the
materialized view shows item 2 locked and items 1 and 3 unlocked; a
subsequent `unlockItem(2, "u")` clears item 2's flag again, and the lock
and unlock records remain visible as their own items (indices 4 and 5). -/
theorem lockUnlockProjection :
    (findItem (getAllItems stLock) 2).map ProjectedItem.locked = some true ∧
    (findItem (getAllItems stLock) 1).map ProjectedItem.locked = some false ∧
    (findItem (getAllItems stLock) 3).map ProjectedItem.locked = some false ∧
    (findItem (getAllItems stUnlock) 2).map ProjectedItem.locked = some false ∧
    (findItem (getAllItems stUnlock) 4).map ProjectedItem.content
      = some (.lockEvidence 2 "u" 14 "Evidence locked by u") ∧
    (findItem (getAllItems stUnlock) 5).map ProjectedItem.content
      = some (.unlockEvidence 2 "u" 15 "Evidence unlocked by u") := by
  refine ⟨?_, ?_, ?_, ?_, ?_, ?_⟩ <;> decide

end KeySight

/-! ## Projector replay lemmas -/

namespace KeySight

theorem setEntry_mem {raw : List (Nat × ProjectedItem)} {k : Nat} {v : ProjectedItem}
    {kv : Nat × ProjectedItem} (h : kv ∈ setEntry raw k v) : kv ∈ raw ∨ kv = (k, v) := by
  unfold setEntry at h
  split at h
  · rw [List.mem_map] at h
    obtain ⟨p, hp, hpe⟩ := h
    by_cases hpk : (p.1 == k) = true
    · rw [if_pos hpk] at hpe
      exact Or.inr hpe.symm
    · rw [if_neg hpk] at hpe
      rw [← hpe]
      exact Or.inl hp
  · rcases List.mem_append.mp h with h1 | h2
    · exact Or.inl h1
    · right
      simpa using h2

theorem setEntry_eq_append {raw : List (Nat × ProjectedItem)} {k : Nat} {v : ProjectedItem}
    (h : raw.any (fun p => p.1 == k) = false) :
    setEntry raw k v = raw ++ [(k, v)] := by
  unfold setEntry
  have hnot : ¬(raw.any (fun p => p.1 == k) = true) := by
    rw [h]
    simp
  rw [if_neg hnot]

theorem addMember_mem {l : List Nat} {x y : Nat} (h : x ∈ addMember l y) : x ∈ l ∨ x = y := by
  unfold addMember at h
  split at h
  · exact Or.inl h
  · rcases List.mem_append.mp h with h1 | h2
    · exact Or.inl h1
    · right
      simpa using h2

theorem addMember_self (l : List Nat) (y : Nat) : y ∈ addMember l y := by
  unfold addMember
  split
  · next hc => exact List.elem_iff.mp hc
  · simp

theorem lookup_mem {l : List (Nat × EventRecord)} {k : Nat} {v : EventRecord}
    (h : List.lookup k l = some v) : (k, v) ∈ l := by
  induction l with
  | nil => simp [List.lookup] at h
  | cons kv rest ih =>
    cases kv with
    | mk k2 v2 =>
      rw [List.lookup_cons] at h
      cases hkk : (k == k2) with
      | true =>
        rw [hkk] at h
        simp only [Option.some.injEq] at h
        have hk : k = k2 := beq_iff_eq.mp hkk
        rw [← h, ← hk]
        exact List.mem_cons_self _ _
      | false =>
        rw [hkk] at h
        exact List.mem_cons_of_mem _ (ih h)

/-- `replayStep` either leaves the raw map unchanged (undecryptable
block) or performs one `Map.set` at the block's index. -/
theorem replayStep_raw (dec : Nat → Option EventRecord) (acc : ReplayAcc) (b : StorageBlock) :
    (replayStep dec acc b).raw = acc.raw ∨
    ∃ content, dec b.index = some content ∧
      (replayStep dec acc b).raw = setEntry acc.raw b.index (mkItem b content) := by
  unfold replayStep
  cases hdec : dec b.index with
  | none => exact Or.inl rfl
  | some content =>
    right
    refine ⟨content, rfl, ?_⟩
    cases content with
    | evidence raw => rfl
    | lockEvidence ti u t d =>
      dsimp only
      split <;> rfl
    | unlockEvidence ti u t d =>
      dsimp only
      split <;> rfl
    | tombstone ti u t d =>
      dsimp only
      split <;> rfl
    | securityViolation sev d pf vs => rfl

/-- `replayStep` adds to the deletions set only when the decrypted record
is a tombstone with a truthy target. -/
theorem replayStep_dels (dec : Nat → Option EventRecord) (acc : ReplayAcc) (b : StorageBlock) :
    (replayStep dec acc b).dels = acc.dels ∨
    ∃ ti u t d, dec b.index = some (.tombstone ti u t d) ∧
      (replayStep dec acc b).dels = addMember acc.dels ti := by
  unfold replayStep
  cases hdec : dec b.index with
  | none => exact Or.inl rfl
  | some content =>
    cases content with
    | evidence raw => exact Or.inl rfl
    | lockEvidence ti u t d =>
      dsimp only
      split <;> exact Or.inl rfl
    | unlockEvidence ti u t d =>
      dsimp only
      split <;> exact Or.inl rfl
    | tombstone ti u t d =>
      dsimp only
      split
      · exact Or.inr ⟨ti, u, t, d, rfl, rfl⟩
      · exact Or.inl rfl
    | securityViolation sev d pf vs => exact Or.inl rfl

/-- Keys in the replayed raw map come from the accumulator or from the
indices of the replayed blocks. -/
theorem foldl_replay_keys (dec : Nat → Option EventRecord) (blocks : List StorageBlock) :
    ∀ (acc : ReplayAcc), ∀ kv ∈ (blocks.foldl (replayStep dec) acc).raw,
      (∃ kv0 ∈ acc.raw, kv0.1 = kv.1) ∨ ∃ b ∈ blocks, kv.1 = b.index := by
  induction blocks with
  | nil =>
    intro acc kv hkv
    exact Or.inl ⟨kv, hkv, rfl⟩
  | cons b rest ih =>
    intro acc kv hkv
    simp only [List.foldl_cons] at hkv
    rcases ih (replayStep dec acc b) kv hkv with ⟨kv0, hkv0, hk⟩ | ⟨b2, hb2, hk⟩
    · rcases replayStep_raw dec acc b with hr | ⟨content, hdec, hr⟩
      · rw [hr] at hkv0
        exact Or.inl ⟨kv0, hkv0, hk⟩
      · rw [hr] at hkv0
        rcases setEntry_mem hkv0 with hmem | heq
        · exact Or.inl ⟨kv0, hmem, hk⟩
        · right
          refine ⟨b, by simp, ?_⟩
          rw [← hk, heq]
    · exact Or.inr ⟨b2, by simp [hb2], hk⟩

/-- Members of the replayed deletions set come from the accumulator or
from a decrypted tombstone among the replayed blocks. -/
theorem foldl_replay_dels (dec : Nat → Option EventRecord) (blocks : List StorageBlock) :
    ∀ (acc : ReplayAcc), ∀ n ∈ (blocks.foldl (replayStep dec) acc).dels,
      n ∈ acc.dels ∨
      ∃ b ∈ blocks, ∃ ti u t d, dec b.index = some (.tombstone ti u t d) ∧ n = ti := by
  induction blocks with
  | nil =>
    intro acc n hn
    exact Or.inl hn
  | cons b rest ih =>
    intro acc n hn
    simp only [List.foldl_cons] at hn
    rcases ih (replayStep dec acc b) n hn with hacc | ⟨b2, hb2, ti, u, t, d, hdec, hnti⟩
    · rcases replayStep_dels dec acc b with hd | ⟨ti, u, t, d, hdec, hd⟩
      · rw [hd] at hacc
        exact Or.inl hacc
      · rw [hd] at hacc
        rcases addMember_mem hacc with hmem | heq
        · exact Or.inl hmem
        · exact Or.inr ⟨b, by simp, ti, u, t, d, hdec, heq⟩
    · exact Or.inr ⟨b2, by simp [hb2], ti, u, t, d, hdec, hnti⟩

/-- Every entry of the replayed raw map carries its own key as the
projected item's block index. -/
theorem foldl_replay_blockIndex (dec : Nat → Option EventRecord) (blocks : List StorageBlock) :
    ∀ (acc : ReplayAcc), (∀ kv ∈ acc.raw, kv.2.blockIndex = kv.1) →
      ∀ kv ∈ (blocks.foldl (replayStep dec) acc).raw, kv.2.blockIndex = kv.1 := by
  induction blocks with
  | nil =>
    intro acc hacc
    exact hacc
  | cons b rest ih =>
    intro acc hacc
    simp only [List.foldl_cons]
    apply ih
    intro kv hkv
    rcases replayStep_raw dec acc b with hr | ⟨content, hdec, hr⟩
    · rw [hr] at hkv
      exact hacc kv hkv
    · rw [hr] at hkv
      rcases setEntry_mem hkv with hmem | heq
      · exact hacc kv hmem
      · rw [heq]
        rfl

end KeySight

namespace KeySight

/-- C7 (amended): deleting an existing item `i` (a truthy index of a
prior block) appends a tombstone block and nothing else: the projection
afterwards contains no item with block index `i`, and no stored block is
mutated or removed; the tombstone itself is visible as its own item at
the new index only when no already-stored tombstone targets that new
index — otherwise the new tombstone is itself hidden from the view. -/
theorem tombstoneProjection (hash : String → String) {s s' : LedgerState} {r : Bool}
    (i : Nat) (u : String) (t : Nat) (g : String)
    (hreach : Reachable hash s)
    (hdel : deleteItem hash s i u t g = .ok (r, s'))
    (hi0 : i ≠ 0) (hilt : i < s.chain.length) :
    (∀ it ∈ getAllItems s', it.blockIndex ≠ i) ∧
    ((∀ kv ∈ s.storage, tombstoneTargets kv.2 s.chain.length = false) →
      ∃ it ∈ getAllItems s', it.blockIndex = s.chain.length ∧
        it.content = .tombstone i u t ("Item deleted by " ++ u)) ∧
    (∃ b, s'.chain = s.chain ++ [b] ∧ ∀ kv ∈ s.storage, kv ∈ s'.storage) := by
  have hinv := reachable_inv hash hreach
  cases happ0 : append hash s (.tombstone i u t ("Item deleted by " ++ u)) t g with
  | error e =>
    unfold deleteItem at hdel
    rw [happ0] at hdel
    exact absurd hdel (by simp)
  | ok p =>
    obtain ⟨b2, s2⟩ := p
    unfold deleteItem at hdel
    rw [happ0] at hdel
    simp only [Except.ok.injEq, Prod.mk.injEq] at hdel
    obtain ⟨hr, hs2⟩ := hdel
    obtain ⟨prev, hk, hlast, hb2, hs'⟩ := append_eq_ok hash happ0
    subst hs2
    subst hs'
    subst hb2
    have hne : s.chain ≠ [] := hinv.keyChain hk
    have hpos : 0 < s.chain.length := List.length_pos.mpr hne
    have hprev : prev = s.chain.getLast hne := by
      rw [List.getLast?_eq_getLast s.chain hne] at hlast
      exact (Option.some.injEq _ _ ▸ hlast).symm
    have hidx : prev.index = s.chain.length - 1 := by
      rw [hprev, List.getLast_eq_getElem s.chain hne]
      exact hinv.chainIdx (s.chain.length - 1) (by omega)
    have hnidx : prev.index + 1 = s.chain.length := by omega
    have hin : i ≠ prev.index + 1 := by omega
    -- Notation for the appended tombstone record, block, and new state.
    set tb : EventRecord := .tombstone i u t ("Item deleted by " ++ u) with htb
    set b2 : StorageBlock :=
      ⟨prev.index + 1, hash (serializeBlock prev), t, hash (serializeRecord tb), g⟩ with hbdef
    set s2 : LedgerState :=
      { s with chain := s.chain ++ [b2], storage := (prev.index + 1, tb) :: s.storage }
      with hsdef
    have hdrop : s2.chain.drop 1 = s.chain.drop 1 ++ [b2] := by
      show (s.chain ++ [b2]).drop 1 = s.chain.drop 1 ++ [b2]
      exact List.drop_append_of_le_length (by omega)
    have hknot : ¬(s2.encryptionKey = false) := by
      show ¬(s.encryptionKey = false)
      rw [hk]
      simp
    have hdecn : decrypt s2 (prev.index + 1) = some tb := by
      unfold decrypt
      rw [if_neg hknot]
      show List.lookup (prev.index + 1) ((prev.index + 1, tb) :: s.storage) = some tb
      rw [List.lookup_cons]
      simp
    have hdec_mem : ∀ j rec, j ≠ prev.index + 1 → decrypt s2 j = some rec →
        (j, rec) ∈ s.storage := by
      intro j rec hj hdec
      unfold decrypt at hdec
      rw [if_neg hknot] at hdec
      have hlk : List.lookup j ((prev.index + 1, tb) :: s.storage) = some rec := hdec
      rw [List.lookup_cons] at hlk
      have hbe : (j == prev.index + 1) = false := beq_eq_false_iff_ne.mpr hj
      rw [hbe] at hlk
      exact lookup_mem hlk
    have hidxlt : ∀ b ∈ s.chain.drop 1, b.index < s.chain.length := by
      intro b hb
      have hbmem : b ∈ s.chain := List.mem_of_mem_drop hb
      obtain ⟨j, hj, hbj⟩ := List.mem_iff_getElem.mp hbmem
      rw [← hbj, hinv.chainIdx j hj]
      exact hj
    set A : ReplayAcc := (s.chain.drop 1).foldl (replayStep (decrypt s2)) ⟨[], [], []⟩
      with hAdef
    have hAkeys : ∀ kv ∈ A.raw, kv.1 < s.chain.length := by
      intro kv hkv
      rcases foldl_replay_keys (decrypt s2) (s.chain.drop 1) ⟨[], [], []⟩ kv hkv with
        ⟨kv0, hkv0, _⟩ | ⟨b, hb, hkb⟩
      · simp at hkv0
      · rw [hkb]
        exact hidxlt b hb
    have hAany : A.raw.any (fun p => p.1 == prev.index + 1) = false := by
      cases hany : A.raw.any (fun p => p.1 == prev.index + 1) with
      | false => rfl
      | true =>
        exfalso
        obtain ⟨kv, hkv, hkvb⟩ := List.any_eq_true.mp hany
        have := hAkeys kv hkv
        have : kv.1 = prev.index + 1 := beq_iff_eq.mp hkvb
        omega
    have hstep : replayStep (decrypt s2) A b2
        = ⟨A.raw ++ [(prev.index + 1, mkItem b2 tb)], A.locks, addMember A.dels i⟩ := by
      unfold replayStep
      have hb2i : b2.index = prev.index + 1 := rfl
      rw [hb2i, hdecn]
      rw [htb]
      dsimp only
      rw [if_pos hi0]
      rw [← htb, setEntry_eq_append hAany]
    have hfold : (s2.chain.drop 1).foldl (replayStep (decrypt s2)) (⟨[], [], []⟩ : ReplayAcc)
        = ⟨A.raw ++ [(prev.index + 1, mkItem b2 tb)], A.locks, addMember A.dels i⟩ := by
      rw [hdrop, List.foldl_append, ← hAdef]
      show replayStep (decrypt s2) A b2 = _
      exact hstep
    have hga : getAllItems s2
        = (((A.raw ++ [(prev.index + 1, mkItem b2 tb)]).filter
              (fun p => !((addMember A.dels i).contains p.1))).map
            (fun p => { p.2 with locked := A.locks.contains p.1 })).reverse := by
      unfold getAllItems
      rw [hfold]
    have hblockIdx : ∀ kv ∈ A.raw ++ [(prev.index + 1, mkItem b2 tb)],
        kv.2.blockIndex = kv.1 := by
      have hall := foldl_replay_blockIndex (decrypt s2) (s2.chain.drop 1) ⟨[], [], []⟩
        (by intro kv hkv; simp at hkv)
      rw [hfold] at hall
      exact hall
    refine ⟨?_, ?_, ?_⟩
    · intro it hit
      rw [hga] at hit
      rw [List.mem_reverse, List.mem_map] at hit
      obtain ⟨p, hp, hpe⟩ := hit
      rw [List.mem_filter] at hp
      obtain ⟨hpmem, hpfil⟩ := hp
      have hpi : p.1 ≠ i := by
        intro hcon
        have hmem : p.1 ∈ addMember A.dels i := by
          rw [hcon]
          exact addMember_self A.dels i
        have hcontains : (addMember A.dels i).contains p.1 = true := List.elem_iff.mpr hmem
        rw [hcontains] at hpfil
        simp at hpfil
      rw [← hpe]
      show p.2.blockIndex ≠ i
      rw [hblockIdx p hpmem]
      exact hpi
    · intro hfresh
      have hAdels : (s.chain.length) ∉ A.dels := by
        intro hmem
        rcases foldl_replay_dels (decrypt s2) (s.chain.drop 1) ⟨[], [], []⟩
            (s.chain.length) hmem with h0 | ⟨b, hb, ti, u2, t2, d2, hdec, hnti⟩
        · simp at h0
        · have hbi : b.index < s.chain.length := hidxlt b hb
          have hmem2 := hdec_mem b.index _ (by omega) hdec
          have hff := hfresh _ hmem2
          unfold tombstoneTargets at hff
          rw [hnti] at hff
          simp at hff
      have hq : (prev.index + 1, mkItem b2 tb) ∈
          A.raw ++ [(prev.index + 1, mkItem b2 tb)] := by simp
      have hnd : (prev.index + 1) ∉ addMember A.dels i := by
        intro hmem
        rcases addMember_mem hmem with hm | hm
        · rw [hnidx] at hm
          exact hAdels hm
        · omega
      have hcf : ((addMember A.dels i).contains (prev.index + 1)) = false := by
        cases hc : (addMember A.dels i).contains (prev.index + 1) with
        | false => rfl
        | true => exact absurd (List.elem_iff.mp hc) hnd
      refine ⟨{ mkItem b2 tb with locked := A.locks.contains (prev.index + 1) }, ?_, ?_, rfl⟩
      · rw [hga, List.mem_reverse, List.mem_map]
        refine ⟨(prev.index + 1, mkItem b2 tb), ?_, rfl⟩
        rw [List.mem_filter]
        refine ⟨hq, ?_⟩
        rw [hcf]
        simp
      · show b2.index = s.chain.length
        rw [show b2.index = prev.index + 1 from rfl]
        exact hnidx
    · refine ⟨b2, rfl, ?_⟩
      intro kv hkv
      show kv ∈ (prev.index + 1, tb) :: s.storage
      exact List.mem_cons_of_mem _ hkv

end KeySight

namespace KeySight

/-- Witness for C7: deleting block 1 of the one-item fixture, where no
stored tombstone targets the new index, so the tombstone is visible. -/
theorem tombstoneProjection_witness :
    (∀ it ∈ getAllItems stDel, it.blockIndex ≠ 1) ∧
    (∃ it ∈ getAllItems stDel, it.blockIndex = stA.chain.length ∧
        it.content = .tombstone 1 "u" 20 "Item deleted by u") ∧
    (∃ b, stDel.chain = stA.chain ++ [b] ∧ ∀ kv ∈ stA.storage, kv ∈ stDel.storage) :=
  ⟨(tombstoneProjection hashFx 1 "u" 20 "gd" reach_stA rfl (by decide) (by decide)).1,
   (tombstoneProjection hashFx 1 "u" 20 "gd" reach_stA rfl (by decide) (by decide)).2.1
     (by decide),
   (tombstoneProjection hashFx 1 "u" 20 "gd" reach_stA rfl (by decide) (by decide)).2.2⟩

/-- C7 counterexample: on the chain genesis, E1, E2, a first
`deleteItem(4, "u")` stores a tombstone (block 3) targeting the
not-yet-existing index 4; a subsequent `deleteItem(2, "u")` on the
existing item 2 succeeds and hides item 2, but its own tombstone is
assigned block index 4 — already in the deletions set — so the filter
drops it and the tombstone is *not* visible in the projection,
contradicting the claim. -/
theorem tombstoneProjection_cex :
    deleteItem hashFx stDel4 2 "u" 14 "g4" = .ok (true, stDel2) ∧
    2 ≠ 0 ∧ 2 < stDel4.chain.length ∧
    (getAllItems stDel2).map ProjectedItem.blockIndex = [3, 1] ∧
    findItem (getAllItems stDel2) 4 = none := by
  refine ⟨rfl, ?_, ?_, ?_, ?_⟩ <;> decide

end KeySight
